import Mathlib

/-!
DLMenu: storage codec (`DLNumber`) and menu items

A shallow embedding of `DLNumber.h`, `DLNumber.cpp` and the inline parts of
`DLMenu.h`.

* The EEPROM is a flat byte store indexed by integer addresses; the methods of
  `DLNumber` that touch it take the store and hand it back.
* The anonymous union `data` of `DLNumber` is represented by its `SIZE` bytes.
  The `unsigned long` member is the little-endian reading of those bytes (the
  byte order of the Arduino targets), the `float` member is the binary32 value
  with that same bit pattern.
* An `int` is 32 bits wide; the `int` sum `address + i` wraps modulo `2 ^ 32`
  into `INT_MIN .. INT_MAX`.
-/

namespace DLMenu

/-! Data model -/

/-- The constant of `DLNumber.h`: `#define SIZE 4`. -/
abbrev SIZE : Nat := 4

/-- An Arduino `byte`. -/
abbrev Byte := Fin 256

/-- The `EEPROM` object: one byte per address. -/
abbrev Storage := Int → Byte

/-- The member `byte b[SIZE]` of the union `data`, which is also its object
representation. -/
abbrev Data := Fin SIZE → Byte

/-- A C `float`, given by its IEEE-754 binary32 bit pattern. -/
structure CFloat where
  bits : Nat
deriving DecidableEq

/-- The object `DLNumber`: `int address` and the union `data`. -/
structure DLNumber where
  address : Int
  data : Data

/-- Byte `i` of a 32-bit pattern, least significant byte first. -/
def byteOf (l : Nat) (i : Nat) : Byte :=
  ⟨l / 256 ^ i % 256, Nat.mod_lt _ (by decide)⟩

/-- Reading the member `data.l`: the `unsigned long` held in the four bytes. -/
def Data.l (d : Data) : Nat :=
  ((List.finRange SIZE).map (fun i => (d i).val * 256 ^ i.val)).sum

/-- Reading the member `data.f`: the float with the bit pattern of the four
bytes. -/
def Data.f (d : Data) : CFloat :=
  ⟨d.l⟩

/-- The assignment `data.l = val`. -/
def Data.setL (val : Nat) : Data :=
  fun i => byteOf val i.val

/-- The assignment `data.f = val`. -/
def Data.setF (val : CFloat) : Data :=
  fun i => byteOf val.bits i.val

/-- The least value of an `int`, 32 bits wide. -/
abbrev INT_MIN : Int := -2147483648

/-- The greatest value of an `int`, 32 bits wide. -/
abbrev INT_MAX : Int := 2147483647

/-- Reduction of an integer into the range of `int`, modulo `2 ^ 32`. -/
def wrapInt (x : Int) : Int :=
  (x + 2147483648) % 4294967296 - 2147483648

/-- The `int` expression `address + i` that indexes `EEPROM` in `load` and
`save`. -/
def addrAt (address : Int) (i : Nat) : Int :=
  wrapInt (address + (i : Int))

/-! `DLNumber.cpp` -/

/-- The method `DLNumber::load`:
`for(int i = 0; i < SIZE; i++) data.b[i] = EEPROM[address + i]; return true;` -/
def DLNumber.load (self : DLNumber) (eeprom : Storage) : Bool × DLNumber × Storage :=
  let data := (List.finRange SIZE).foldl
    (fun (b : Data) i => Function.update b i (eeprom (addrAt self.address i.val)))
    self.data
  (true, { self with data := data }, eeprom)

/-- The method `DLNumber::save`:
`for(i = 0; i < SIZE; i++) EEPROM[address + i] = data.b[i];` -/
def DLNumber.save (self : DLNumber) (eeprom : Storage) : DLNumber × Storage :=
  let eeprom := (List.finRange SIZE).foldl
    (fun (e : Storage) i => Function.update e (addrAt self.address i.val) (self.data i))
    eeprom
  (self, eeprom)

/-- The constructor `DLNumber::DLNumber(int a)`: `address = a; load();`.
`uninit` is the content of `data` before the constructor body runs. -/
def DLNumber.new (a : Int) (uninit : Data) (eeprom : Storage) : DLNumber × Storage :=
  let self : DLNumber := { address := a, data := uninit }
  let r := self.load eeprom
  (r.2.1, r.2.2)

/-- The method `DLNumber::getFloatValue`: `return data.f;` -/
def DLNumber.getFloatValue (self : DLNumber) : CFloat :=
  self.data.f

/-- The method `DLNumber::getUintValue`: `return data.l;` -/
def DLNumber.getUintValue (self : DLNumber) : Nat :=
  self.data.l

/-- The overload `DLNumber::setValue(unsigned long val)`: `data.l = val; save();` -/
def DLNumber.setValueUint (self : DLNumber) (val : Nat) (eeprom : Storage) :
    DLNumber × Storage :=
  let self := { self with data := Data.setL val }
  self.save eeprom

/-- The overload `DLNumber::setValue(float val)`: `data.f = val; save();` -/
def DLNumber.setValueFloat (self : DLNumber) (val : CFloat) (eeprom : Storage) :
    DLNumber × Storage :=
  let self := { self with data := Data.setF val }
  self.save eeprom

/-- Memory and storage agree: the four bytes of `data` are the four storage
bytes at the addresses `address + i` of `load` and `save`. -/
def DLNumber.Synced (self : DLNumber) (eeprom : Storage) : Prop :=
  ∀ i : Fin SIZE, eeprom (addrAt self.address i.val) = self.data i

/-- One call of `setValue`, of either overload. -/
inductive SetCall where
  | ofUint (val : Nat)
  | ofFloat (val : CFloat)

/-- The bit pattern of the argument of a `setValue` call. -/
def SetCall.bits : SetCall → Nat
  | .ofUint val => val
  | .ofFloat val => val.bits

/-- Overload resolution of `DLNumber::setValue`. -/
def DLNumber.setValue (self : DLNumber) (c : SetCall) (eeprom : Storage) : DLNumber × Storage :=
  match c with
  | .ofUint val => self.setValueUint val eeprom
  | .ofFloat val => self.setValueFloat val eeprom

/-- A sequence of `setValue` calls on one object, in order. -/
def DLNumber.setValues (self : DLNumber) (cs : List SetCall) (eeprom : Storage) :
    DLNumber × Storage :=
  cs.foldl (fun p c => p.1.setValue c p.2) (self, eeprom)

/-! `DLMenu.h`: choice items -/

/-- The data members of the base class `DLMenuItem` that are plain data: `label`,
`address`, `s` and `sections`. -/
structure DLMenuItem where
  label : String
  address : Int
  s : Int
  sections : Int
deriving DecidableEq

/-- The class `DLChoiceMenuItem`: the base members and `selected`, `len`,
`choices`. -/
structure DLChoiceMenuItem extends DLMenuItem where
  selected : Byte
  len : Int
  choices : List String
deriving DecidableEq

/-- The inline method `bool next(void){ return false; };` of `DLChoiceMenuItem`. -/
def DLChoiceMenuItem.next (self : DLChoiceMenuItem) : Bool × DLChoiceMenuItem :=
  (false, self)

/-- The inline method `bool previous(void){ return false; }` of `DLChoiceMenuItem`. -/
def DLChoiceMenuItem.previous (self : DLChoiceMenuItem) : Bool × DLChoiceMenuItem :=
  (false, self)

/-- The inline method `byte getValue(void) { return selected; };` of
`DLChoiceMenuItem`. -/
def DLChoiceMenuItem.getValue (self : DLChoiceMenuItem) : Byte :=
  self.selected

/-! Integer digit editor

`DLMenu.h` only declares `DLIntMenuItem`; the bodies of `explode`, `add` and
`increase` are in `DLMenu.cpp`, which is not among the sources. They are given
here as section 4.3 of the specification describes them. -/

/-- Modelled from the spec: the editable state of `DLIntMenuItem` (its methods
are defined in `DLMenu.cpp`, which is missing): the digit count, the digit
buffer `numerals`, most significant digit first, and the section cursor `s`. -/
structure DLIntMenuItem where
  digits : Nat
  numerals : List Int
  s : Nat
deriving DecidableEq

/-- Modelled from the spec: the decimal digit sequence written by
`DLIntMenuItem::explode` (body missing, in `DLMenu.cpp`): `n` digits of `value`,
most significant first, left-padded with zero digits. -/
def explodeDigits : Nat → Nat → List Int
  | 0, _ => []
  | n + 1, value => ((value / 10 ^ n % 10 : Nat) : Int) :: explodeDigits n value

/-- Modelled from the spec: `DLIntMenuItem::explode` (body missing, in
`DLMenu.cpp`). The raw value, which the method reads from its `DLNumber`, is
an argument; a value beyond the digit count is truncated to the maximum
representable value. -/
def DLIntMenuItem.explode (self : DLIntMenuItem) (value : Nat) : DLIntMenuItem :=
  { self with numerals := explodeDigits self.digits (min value (10 ^ self.digits - 1)) }

/-- Modelled from the spec: the carry and borrow chain of `DLIntMenuItem::add`
(body missing, in `DLMenu.cpp`). Add `delta` to `digit[s]`; if `digit[s] > 9`
set `digit[s] -= 10` and propagate `+1` into `digit[s-1]`, past the most
significant digit clamp at all 9s; if `digit[s] < 0` set `digit[s] += 10` and
propagate `-1` into `digit[s-1]`, past the most significant digit clamp at
zero. -/
def addAt (numerals : List Int) : Nat → Int → List Int
  | 0, delta =>
    let d := numerals.getD 0 0 + delta
    if d > 9 then List.replicate numerals.length 9
    else if d < 0 then List.replicate numerals.length 0
    else numerals.set 0 d
  | s + 1, delta =>
    let d := numerals.getD (s + 1) 0 + delta
    if d > 9 then addAt (numerals.set (s + 1) (d - 10)) s 1
    else if d < 0 then addAt (numerals.set (s + 1) (d + 10)) s (-1)
    else numerals.set (s + 1) d

/-- Modelled from the spec: `DLIntMenuItem::add(int i)` (body missing, in
`DLMenu.cpp`): add `i` at the section under the cursor. -/
def DLIntMenuItem.add (self : DLIntMenuItem) (i : Int) : DLIntMenuItem :=
  { self with numerals := addAt self.numerals self.s i }

/-- Modelled from the spec: `DLIntMenuItem::increase` (body missing, in
`DLMenu.cpp`): `add(+1)` at the current section. -/
def DLIntMenuItem.increase (self : DLIntMenuItem) : DLIntMenuItem :=
  self.add 1

/-- Modelled from the spec: `DLIntMenuItem::decrease` (body missing, in
`DLMenu.cpp`): `add(-1)` at the current section. -/
def DLIntMenuItem.decrease (self : DLIntMenuItem) : DLIntMenuItem :=
  self.add (-1)

/-- Modelled from the spec: the plain positional integer of a digit buffer,
the sum of `digit[i] * 10 ^ (n - 1 - i)`. -/
def positional : List Int → Int
  | [] => 0
  | d :: ds => d * 10 ^ ds.length + positional ds

/-- Modelled from the spec: the scalar reconstructed from the digit buffer of a
`DLIntMenuItem`, as on commit. -/
def DLIntMenuItem.value (self : DLIntMenuItem) : Int :=
  positional self.numerals

/-- Every cell of a digit buffer holds a decimal digit. -/
def IsDigits (numerals : List Int) : Prop :=
  ∀ d ∈ numerals, 0 ≤ d ∧ d ≤ 9

instance (numerals : List Int) : Decidable (IsDigits numerals) := by
  unfold IsDigits
  infer_instance

/-! Basic facts about the embedding -/

theorem finRange_SIZE : List.finRange SIZE = [0, 1, 2, 3] := by
  decide

theorem Data.l_eq (d : Data) :
    d.l = (d 0).val + 256 * (d 1).val + 65536 * (d 2).val + 16777216 * (d 3).val := by
  have e1 : ((1 : Fin SIZE) : Nat) = 1 := rfl
  have e2 : ((2 : Fin SIZE) : Nat) = 2 := rfl
  have e3 : ((3 : Fin SIZE) : Nat) = 3 := rfl
  simp only [Data.l, finRange_SIZE, List.map_cons, List.map_nil, List.sum_cons, List.sum_nil,
    e1, e2, e3, Fin.val_zero]
  omega

theorem Data.l_lt (d : Data) : d.l < 2 ^ 32 := by
  rw [Data.l_eq]
  have h0 := (d 0).isLt
  have h1 := (d 1).isLt
  have h2 := (d 2).isLt
  have h3 := (d 3).isLt
  omega

theorem byteOf_val (l i : Nat) : (byteOf l i).val = l / 256 ^ i % 256 := rfl

theorem Data.l_setL (val : Nat) : (Data.setL val).l = val % 2 ^ 32 := by
  have e1 : ((1 : Fin SIZE) : Nat) = 1 := rfl
  have e2 : ((2 : Fin SIZE) : Nat) = 2 := rfl
  have e3 : ((3 : Fin SIZE) : Nat) = 3 := rfl
  rw [Data.l_eq]
  simp only [Data.setL, byteOf_val, e1, e2, e3, Fin.val_zero]
  omega

theorem Data.setL_l (d : Data) : Data.setL d.l = d := by
  have h0 := (d 0).isLt
  have h1 := (d 1).isLt
  have h2 := (d 2).isLt
  have h3 := (d 3).isLt
  funext i
  apply Fin.ext
  rw [Data.l_eq]
  simp only [Data.setL, byteOf_val]
  match i with
  | ⟨0, _⟩ => show _ = (d 0).val; simp only []; omega
  | ⟨1, _⟩ => show _ = (d 1).val; simp only []; omega
  | ⟨2, _⟩ => show _ = (d 2).val; simp only []; omega
  | ⟨3, _⟩ => show _ = (d 3).val; simp only []; omega

theorem Data.f_setF (val : CFloat) (h : val.bits < 2 ^ 32) : (Data.setF val).f = val := by
  have e : Data.setF val = Data.setL val.bits := rfl
  cases val with
  | mk bits =>
    simp only [Data.f, e, Data.l_setL]
    exact congrArg CFloat.mk (Nat.mod_eq_of_lt h)

theorem addrAt_inj (a : Int) (i j : Nat) (hi : i < 4) (hj : j < 4)
    (h : addrAt a i = addrAt a j) : i = j := by
  simp only [addrAt, wrapInt] at h
  omega

theorem addrAt_ne (a : Int) (i j : Nat) (hi : i < 4) (hj : j < 4) (hij : i ≠ j) :
    addrAt a i ≠ addrAt a j :=
  fun h => hij (addrAt_inj a i j hi hj h)

/-- Where `address .. address + 3` lies in the range of `int`, the sum
`address + i` does not wrap. -/
theorem addrAt_eq (a : Int) (i : Nat) (hi : i < 4) (hlo : INT_MIN ≤ a) (hhi : a + 3 ≤ INT_MAX) :
    addrAt a i = a + (i : Int) := by
  simp only [INT_MIN, INT_MAX] at hlo hhi
  simp only [addrAt, wrapInt]
  omega

theorem DLNumber.load_data (self : DLNumber) (eeprom : Storage) (i : Fin SIZE) :
    (self.load eeprom).2.1.data i = eeprom (addrAt self.address i.val) := by
  simp only [DLNumber.load, finRange_SIZE, List.foldl_cons, List.foldl_nil]
  match i with
  | ⟨0, _⟩ => rfl
  | ⟨1, _⟩ => rfl
  | ⟨2, _⟩ => rfl
  | ⟨3, _⟩ => rfl

theorem DLNumber.load_address (self : DLNumber) (eeprom : Storage) :
    (self.load eeprom).2.1.address = self.address := rfl

theorem DLNumber.load_storage (self : DLNumber) (eeprom : Storage) :
    (self.load eeprom).2.2 = eeprom := rfl

theorem DLNumber.new_data (a : Int) (uninit : Data) (eeprom : Storage) (i : Fin SIZE) :
    (DLNumber.new a uninit eeprom).1.data i = eeprom (addrAt a i.val) :=
  DLNumber.load_data ⟨a, uninit⟩ eeprom i

theorem DLNumber.new_address (a : Int) (uninit : Data) (eeprom : Storage) :
    (DLNumber.new a uninit eeprom).1.address = a := rfl

theorem DLNumber.new_storage (a : Int) (uninit : Data) (eeprom : Storage) :
    (DLNumber.new a uninit eeprom).2 = eeprom := rfl

theorem DLNumber.save_eq (self : DLNumber) (eeprom : Storage) :
    (self.save eeprom).2
      = Function.update (Function.update (Function.update (Function.update eeprom
          (addrAt self.address 0) (self.data 0)) (addrAt self.address 1) (self.data 1))
          (addrAt self.address 2) (self.data 2)) (addrAt self.address 3) (self.data 3) := by
  simp only [DLNumber.save, finRange_SIZE, List.foldl_cons, List.foldl_nil]
  rfl

theorem DLNumber.save_at (self : DLNumber) (eeprom : Storage) (i : Fin SIZE) :
    (self.save eeprom).2 (addrAt self.address i.val) = self.data i := by
  rw [DLNumber.save_eq]
  match i with
  | ⟨0, _⟩ =>
    rw [Function.update_noteq (addrAt_ne _ 0 3 (by decide) (by decide) (by decide)),
      Function.update_noteq (addrAt_ne _ 0 2 (by decide) (by decide) (by decide)),
      Function.update_noteq (addrAt_ne _ 0 1 (by decide) (by decide) (by decide))]
    exact Function.update_same _ _ _
  | ⟨1, _⟩ =>
    rw [Function.update_noteq (addrAt_ne _ 1 3 (by decide) (by decide) (by decide)),
      Function.update_noteq (addrAt_ne _ 1 2 (by decide) (by decide) (by decide))]
    exact Function.update_same _ _ _
  | ⟨2, _⟩ =>
    rw [Function.update_noteq (addrAt_ne _ 2 3 (by decide) (by decide) (by decide))]
    exact Function.update_same _ _ _
  | ⟨3, _⟩ =>
    exact Function.update_same _ _ _

/-- The loop of `save` leaves every cell that is none of its four addresses. -/
theorem DLNumber.save_other (self : DLNumber) (eeprom : Storage) (x : Int)
    (hx : ∀ i : Nat, i < 4 → x ≠ addrAt self.address i) :
    (self.save eeprom).2 x = eeprom x := by
  rw [DLNumber.save_eq]
  rw [Function.update_noteq (hx 3 (by decide)), Function.update_noteq (hx 2 (by decide)),
    Function.update_noteq (hx 1 (by decide)), Function.update_noteq (hx 0 (by decide))]

theorem DLNumber.save_frame (self : DLNumber) (eeprom : Storage) (x : Int)
    (hlo : INT_MIN ≤ self.address) (hhi : self.address + 3 ≤ INT_MAX)
    (hx : x < self.address ∨ self.address + 3 < x) :
    (self.save eeprom).2 x = eeprom x := by
  apply DLNumber.save_other
  intro i hi
  rw [addrAt_eq _ i hi hlo hhi]
  omega

theorem DLNumber.new_synced (a : Int) (uninit : Data) (eeprom : Storage) :
    (DLNumber.new a uninit eeprom).1.Synced (DLNumber.new a uninit eeprom).2 := by
  intro i
  rw [DLNumber.new_data]
  rfl

theorem DLNumber.save_synced (self : DLNumber) (eeprom : Storage) :
    (self.save eeprom).1.Synced (self.save eeprom).2 := by
  intro i
  exact DLNumber.save_at self eeprom i

theorem DLNumber.setValueUint_synced (self : DLNumber) (val : Nat) (eeprom : Storage) :
    (self.setValueUint val eeprom).1.Synced (self.setValueUint val eeprom).2 :=
  DLNumber.save_synced _ eeprom

theorem DLNumber.setValueFloat_synced (self : DLNumber) (val : CFloat) (eeprom : Storage) :
    (self.setValueFloat val eeprom).1.Synced (self.setValueFloat val eeprom).2 :=
  DLNumber.save_synced _ eeprom

theorem DLNumber.setValue_synced (self : DLNumber) (c : SetCall) (eeprom : Storage) :
    (self.setValue c eeprom).1.Synced (self.setValue c eeprom).2 := by
  cases c with
  | ofUint val => exact DLNumber.setValueUint_synced self val eeprom
  | ofFloat val => exact DLNumber.setValueFloat_synced self val eeprom

theorem DLNumber.setValue_address (self : DLNumber) (c : SetCall) (eeprom : Storage) :
    (self.setValue c eeprom).1.address = self.address := by
  cases c <;> rfl

theorem DLNumber.setValues_invariant (cs : List SetCall) (self : DLNumber) (eeprom : Storage)
    (h : self.Synced eeprom) :
    (self.setValues cs eeprom).1.Synced (self.setValues cs eeprom).2 ∧
      (self.setValues cs eeprom).1.address = self.address := by
  induction cs generalizing self eeprom with
  | nil => exact ⟨h, rfl⟩
  | cons c cs ih =>
    have step := ih (self.setValue c eeprom).1 (self.setValue c eeprom).2
      (DLNumber.setValue_synced self c eeprom)
    rw [DLNumber.setValue_address] at step
    exact step

theorem DLNumber.setValues_snoc (self : DLNumber) (cs : List SetCall) (c : SetCall)
    (eeprom : Storage) :
    self.setValues (cs ++ [c]) eeprom
      = (self.setValues cs eeprom).1.setValue c (self.setValues cs eeprom).2 := by
  simp only [DLNumber.setValues, List.foldl_append, List.foldl_cons, List.foldl_nil]

/-- A constructed object reads the same value whenever the four bytes at its
addresses are the same. -/
theorem DLNumber.new_congr (b : Int) (u : Data) (e e' : Storage)
    (h : ∀ i : Fin SIZE, e' (addrAt b i.val) = e (addrAt b i.val)) :
    (DLNumber.new b u e').1.data = (DLNumber.new b u e).1.data := by
  funext i
  rw [DLNumber.new_data, DLNumber.new_data, h]

theorem DLNumber.new_after_save (self : DLNumber) (u : Data) (eeprom : Storage) :
    (DLNumber.new self.address u (self.save eeprom).2).1.data = self.data := by
  funext i
  rw [DLNumber.new_data, DLNumber.save_at]

theorem DLNumber.new_after_setValueUint (self : DLNumber) (u : Data) (val : Nat)
    (eeprom : Storage) :
    (DLNumber.new self.address u (self.setValueUint val eeprom).2).1.data = Data.setL val :=
  DLNumber.new_after_save { self with data := Data.setL val } u eeprom

theorem DLNumber.new_after_setValueFloat (self : DLNumber) (u : Data) (val : CFloat)
    (eeprom : Storage) :
    (DLNumber.new self.address u (self.setValueFloat val eeprom).2).1.data = Data.setF val :=
  DLNumber.new_after_save { self with data := Data.setF val } u eeprom

theorem DLNumber.save_of_synced (self : DLNumber) (eeprom : Storage) (h : self.Synced eeprom) :
    (self.save eeprom).2 = eeprom := by
  funext x
  by_cases hx : ∀ i : Nat, i < 4 → x ≠ addrAt self.address i
  · exact DLNumber.save_other self eeprom x hx
  · push_neg at hx
    obtain ⟨i, hi, hxi⟩ := hx
    have hs := DLNumber.save_at self eeprom ⟨i, hi⟩
    have hh := h ⟨i, hi⟩
    simp only at hs hh
    rw [hxi, hs, hh]

theorem DLNumber.setValue_other (self : DLNumber) (c : SetCall) (eeprom : Storage) (x : Int)
    (hx : ∀ i : Nat, i < 4 → x ≠ addrAt self.address i) :
    (self.setValue c eeprom).2 x = eeprom x := by
  cases c with
  | ofUint val => exact DLNumber.save_other { self with data := Data.setL val } eeprom x hx
  | ofFloat val => exact DLNumber.save_other { self with data := Data.setF val } eeprom x hx

theorem DLNumber.setValue_frame (self : DLNumber) (c : SetCall) (eeprom : Storage) (x : Int)
    (hlo : INT_MIN ≤ self.address) (hhi : self.address + 3 ≤ INT_MAX)
    (hx : x < self.address ∨ self.address + 3 < x) :
    (self.setValue c eeprom).2 x = eeprom x := by
  cases c with
  | ofUint val =>
    exact DLNumber.save_frame { self with data := Data.setL val } eeprom x hlo hhi hx
  | ofFloat val =>
    exact DLNumber.save_frame { self with data := Data.setF val } eeprom x hlo hhi hx

theorem DLNumber.setValue_data (self : DLNumber) (c : SetCall) (eeprom : Storage) :
    (self.setValue c eeprom).1.data = Data.setL c.bits := by
  cases c <;> rfl

theorem DLNumber.getUintValue_setValueUint (self : DLNumber) (v : Nat) (eeprom : Storage) :
    (self.setValueUint v eeprom).1.getUintValue = v % 2 ^ 32 :=
  Data.l_setL v

theorem DLNumber.getUintValue_setValueFloat (self : DLNumber) (f : CFloat) (eeprom : Storage) :
    (self.setValueFloat f eeprom).1.getUintValue = f.bits % 2 ^ 32 :=
  Data.l_setL f.bits

theorem Data.byteOf_l (d : Data) (i : Fin SIZE) : byteOf d.l i.val = d i :=
  congrFun (Data.setL_l d) i

/-! The storage codec -/

/-- C1. Integer round trip through storage: after `setValue(v)` on a `DLNumber`
built at address `a`, a freshly built `DLNumber` at `a` has `getUintValue() == v`,
for every storage content, address and 32-bit unsigned `v`. -/
theorem uint_round_trip (eeprom : Storage) (a : Int) (u u' : Data) (v : Nat)
    (hv : v < 2 ^ 32) :
    (DLNumber.new a u'
      ((DLNumber.new a u eeprom).1.setValueUint v (DLNumber.new a u eeprom).2).2).1.getUintValue
      = v := by
  have h := DLNumber.new_after_setValueUint (DLNumber.new a u eeprom).1 u' v
    (DLNumber.new a u eeprom).2
  rw [DLNumber.new_address] at h
  rw [DLNumber.getUintValue, h, Data.l_setL]
  exact Nat.mod_eq_of_lt hv

theorem uint_round_trip_witness :
    (DLNumber.new 16 (fun _ => 0)
      ((DLNumber.new 16 (fun _ => 0) (fun _ => 255)).1.setValueUint 305419896
        (DLNumber.new 16 (fun _ => 0) (fun _ => 255)).2).2).1.getUintValue
      = 305419896 :=
  uint_round_trip (fun _ => 255) 16 (fun _ => 0) (fun _ => 0) 305419896 (by decide)

/-- C2. Float round trip, bit-exact: after `setValue(f)` on a `DLNumber` built at
address `a`, a freshly built `DLNumber` at `a` has `getFloatValue()` with the same
32-bit pattern as `f`, for every storage content, address and binary32 pattern. -/
theorem float_round_trip (eeprom : Storage) (a : Int) (u u' : Data) (f : CFloat)
    (hf : f.bits < 2 ^ 32) :
    (DLNumber.new a u'
      ((DLNumber.new a u eeprom).1.setValueFloat f (DLNumber.new a u eeprom).2).2).1.getFloatValue
      = f := by
  have h := DLNumber.new_after_setValueFloat (DLNumber.new a u eeprom).1 u' f
    (DLNumber.new a u eeprom).2
  rw [DLNumber.new_address] at h
  rw [DLNumber.getFloatValue, h]
  exact Data.f_setF f hf

theorem float_round_trip_witness :
    (DLNumber.new 16 (fun _ => 0)
      ((DLNumber.new 16 (fun _ => 0) (fun _ => 255)).1.setValueFloat ⟨0x7FC00001⟩
        (DLNumber.new 16 (fun _ => 0) (fun _ => 255)).2).2).1.getFloatValue
      = ⟨0x7FC00001⟩ :=
  float_round_trip (fun _ => 255) 16 (fun _ => 0) (fun _ => 0) ⟨0x7FC00001⟩ (by decide)

/-- C3, as stated, fails where `a + 3` exceeds `INT_MAX`: at address
`INT_MAX - 1` the write `setValue(0x12345678)` puts byte 2 of the value at
address `INT_MIN`, which lies outside `a .. a + 3`, and changes that cell from
255 to 0x34. -/
theorem setValue_changes_only_four_bytes_counterexample :
    ((-2147483648 : Int) < (DLNumber.new 2147483646 (fun _ => 0) (fun _ => 255)).1.address ∨
        (DLNumber.new 2147483646 (fun _ => 0) (fun _ => 255)).1.address + 3
          < (-2147483648 : Int)) ∧
      ((DLNumber.new 2147483646 (fun _ => 0) (fun _ => 255)).1.setValueUint 305419896
          (fun _ => 255)).2 (-2147483648) = 52 ∧
      ((DLNumber.new 2147483646 (fun _ => 0) (fun _ => 255)).1.setValueUint 305419896
          (fun _ => 255)).2 (-2147483648) ≠ (fun _ => 255 : Storage) (-2147483648) := by
  refine ⟨Or.inl (by decide), ?_, ?_⟩
  · rw [DLNumber.setValueUint, DLNumber.save_eq]
    decide
  · rw [DLNumber.setValueUint, DLNumber.save_eq]
    decide

/-- C3, amended. Persisted layout and frame: where the range `a .. a + 3` lies
within `INT_MIN .. INT_MAX`, `setValue`, of either overload, on a `DLNumber`
at address `a` leaves every storage byte at an address outside `a .. a + 3` as
it was. -/
theorem setValue_changes_only_four_bytes (eeprom : Storage) (self : DLNumber) (v : Nat)
    (f : CFloat) (x : Int) (hlo : INT_MIN ≤ self.address) (hhi : self.address + 3 ≤ INT_MAX)
    (hx : x < self.address ∨ self.address + 3 < x) :
    (self.setValueUint v eeprom).2 x = eeprom x ∧
      (self.setValueFloat f eeprom).2 x = eeprom x :=
  ⟨DLNumber.setValue_frame self (.ofUint v) eeprom x hlo hhi hx,
    DLNumber.setValue_frame self (.ofFloat f) eeprom x hlo hhi hx⟩

theorem setValue_changes_only_four_bytes_witness :
    ((DLNumber.new 2147483644 (fun _ => 0) (fun _ => 255)).1.setValueUint 305419896
        (fun _ => 255)).2 (-2147483648) = (fun _ => 255) (-2147483648) ∧
      ((DLNumber.new 2147483644 (fun _ => 0) (fun _ => 255)).1.setValueFloat ⟨0x3F800000⟩
        (fun _ => 255)).2 (-2147483648) = (fun _ => 255) (-2147483648) :=
  setValue_changes_only_four_bytes (fun _ => 255)
    (DLNumber.new 2147483644 (fun _ => 0) (fun _ => 255)).1 305419896 ⟨0x3F800000⟩
    (-2147483648) (by decide) (by decide) (Or.inl (by decide))

/-- C4, as stated, fails where a range runs past `INT_MAX`: the ranges of
`a = INT_MAX - 1` and `b = INT_MIN` do not overlap as integers, yet after
`setValue(0x12345678)` at `a` the value loaded at `b` is 0xFFFF1234 instead of
0xFFFFFFFF; likewise with the two addresses exchanged. -/
theorem setValue_independent_counterexample :
    ((2147483646 : Int) + 3 < -2147483648 ∨ (-2147483648 : Int) + 3 < 2147483646) ∧
      (DLNumber.new (-2147483648) (fun _ => 0) (fun _ => 255)).1.getUintValue = 4294967295 ∧
      (DLNumber.new (-2147483648) (fun _ => 0)
        ((DLNumber.new 2147483646 (fun _ => 0) (fun _ => 255)).1.setValueUint 305419896
          (fun _ => 255)).2).1.getUintValue = 4294906420 ∧
      (DLNumber.new 2147483646 (fun _ => 0) (fun _ => 255)).1.getUintValue = 4294967295 ∧
      (DLNumber.new 2147483646 (fun _ => 0)
        ((DLNumber.new (-2147483648) (fun _ => 0) (fun _ => 255)).1.setValueUint 305419896
          (fun _ => 255)).2).1.getUintValue = 1450770431 := by
  refine ⟨Or.inr (by decide), ?_, ?_, ?_, ?_⟩
  · decide
  · decide
  · decide
  · decide

/-- C4, amended. Independence of non-overlapping items: where the ranges
`a .. a + 3` and `b .. b + 3` both lie within `INT_MIN .. INT_MAX` and do not
overlap, `setValue` on a `DLNumber` at `a` does not change what a `DLNumber`
built at `b` loads: `getUintValue` and `getFloatValue` at `b` are the same
before and after the write. -/
theorem setValue_independent (eeprom : Storage) (self : DLNumber) (b : Int) (u : Data)
    (c : SetCall) (halo : INT_MIN ≤ self.address) (hahi : self.address + 3 ≤ INT_MAX)
    (hblo : INT_MIN ≤ b) (hbhi : b + 3 ≤ INT_MAX)
    (h : self.address + 3 < b ∨ b + 3 < self.address) :
    (DLNumber.new b u (self.setValue c eeprom).2).1.getUintValue
        = (DLNumber.new b u eeprom).1.getUintValue ∧
      (DLNumber.new b u (self.setValue c eeprom).2).1.getFloatValue
        = (DLNumber.new b u eeprom).1.getFloatValue := by
  have hd : (DLNumber.new b u (self.setValue c eeprom).2).1.data
      = (DLNumber.new b u eeprom).1.data := by
    apply DLNumber.new_congr
    intro i
    have hi : i.val < 4 := i.isLt
    rw [addrAt_eq b i.val hi hblo hbhi]
    apply DLNumber.setValue_frame self c eeprom _ halo hahi
    omega
  simp only [DLNumber.getUintValue, DLNumber.getFloatValue, hd, and_self]

theorem setValue_independent_witness :
    (DLNumber.new (-2147483648) (fun _ => 0)
        ((DLNumber.new 2147483644 (fun _ => 0) (fun _ => 255)).1.setValue (.ofUint 305419896)
          (fun _ => 255)).2).1.getUintValue
        = (DLNumber.new (-2147483648) (fun _ => 0) (fun _ => 255)).1.getUintValue ∧
      (DLNumber.new (-2147483648) (fun _ => 0)
        ((DLNumber.new 2147483644 (fun _ => 0) (fun _ => 255)).1.setValue (.ofUint 305419896)
          (fun _ => 255)).2).1.getFloatValue
        = (DLNumber.new (-2147483648) (fun _ => 0) (fun _ => 255)).1.getFloatValue :=
  setValue_independent (fun _ => 255) (DLNumber.new 2147483644 (fun _ => 0) (fun _ => 255)).1
    (-2147483648) (fun _ => 0) (.ofUint 305419896) (by decide) (by decide) (by decide)
    (by decide) (Or.inr (by decide))

/-- C5. Choice items have no intra-item navigation: in every state of a
`DLChoiceMenuItem`, `next()` and `previous()` return false and leave the
selected index and the section cursor as they were. -/
theorem choice_next_previous (self : DLChoiceMenuItem) :
    self.next.1 = false ∧ self.previous.1 = false ∧
      self.next.2.selected = self.selected ∧ self.next.2.s = self.s ∧
      self.previous.2.selected = self.selected ∧ self.previous.2.s = self.s ∧
      self.next.2 = self ∧ self.previous.2 = self :=
  ⟨rfl, rfl, rfl, rfl, rfl, rfl, rfl, rfl⟩

/-- C6. `setValue` saves immediately, so memory and storage never disagree.
After building a `DLNumber` at address `a` and any sequence `cs` of `setValue`
calls of either overload, the storage byte at `address + i` is byte `i` of the
value the getters return, for each `i` in `0 .. 3`. After one more call `c` the
getters return the value passed in `c` and the storage byte at `address + i`
is byte `i` of that value, with no further step. Where `a .. a + 3` lies within
`INT_MIN .. INT_MAX` the address `address + i` is the integer `a + i`. -/
theorem storage_agrees_with_memory (eeprom : Storage) (a : Int) (u : Data)
    (cs : List SetCall) (c : SetCall) (i : Fin SIZE) :
    (((DLNumber.new a u eeprom).1.setValues cs (DLNumber.new a u eeprom).2).2 (addrAt a i.val)
        = byteOf
          ((DLNumber.new a u eeprom).1.setValues cs (DLNumber.new a u eeprom).2).1.getUintValue
          i.val ∧
      ((DLNumber.new a u eeprom).1.setValues cs (DLNumber.new a u eeprom).2).2 (addrAt a i.val)
        = byteOf
          ((DLNumber.new a u eeprom).1.setValues cs
            (DLNumber.new a u eeprom).2).1.getFloatValue.bits
          i.val) ∧
      (((DLNumber.new a u eeprom).1.setValues (cs ++ [c])
          (DLNumber.new a u eeprom).2).1.getUintValue = c.bits % 2 ^ 32 ∧
        ((DLNumber.new a u eeprom).1.setValues (cs ++ [c])
          (DLNumber.new a u eeprom).2).1.getFloatValue.bits = c.bits % 2 ^ 32 ∧
        ((DLNumber.new a u eeprom).1.setValues (cs ++ [c])
          (DLNumber.new a u eeprom).2).2 (addrAt a i.val) = byteOf c.bits i.val) ∧
      (INT_MIN ≤ a → a + 3 ≤ INT_MAX →
        ((DLNumber.new a u eeprom).1.setValues cs (DLNumber.new a u eeprom).2).2
            (a + (i.val : Int))
          = byteOf
            ((DLNumber.new a u eeprom).1.setValues cs (DLNumber.new a u eeprom).2).1.getUintValue
            i.val ∧
        ((DLNumber.new a u eeprom).1.setValues (cs ++ [c])
          (DLNumber.new a u eeprom).2).2 (a + (i.val : Int)) = byteOf c.bits i.val) := by
  have key : ∀ cs : List SetCall,
      ((DLNumber.new a u eeprom).1.setValues cs (DLNumber.new a u eeprom).2).2 (addrAt a i.val)
        = byteOf
          ((DLNumber.new a u eeprom).1.setValues cs (DLNumber.new a u eeprom).2).1.getUintValue
          i.val := by
    intro cs
    have inv := DLNumber.setValues_invariant cs (DLNumber.new a u eeprom).1
      (DLNumber.new a u eeprom).2 (DLNumber.new_synced a u eeprom)
    have hs := inv.1 i
    rw [inv.2, DLNumber.new_address] at hs
    exact hs.trans (Data.byteOf_l _ i).symm
  have hdata : ((DLNumber.new a u eeprom).1.setValues (cs ++ [c])
      (DLNumber.new a u eeprom).2).1.data = Data.setL c.bits := by
    rw [DLNumber.setValues_snoc]
    exact DLNumber.setValue_data _ c _
  have hget : ((DLNumber.new a u eeprom).1.setValues (cs ++ [c])
      (DLNumber.new a u eeprom).2).1.getUintValue = c.bits % 2 ^ 32 := by
    rw [DLNumber.getUintValue, hdata, Data.l_setL]
  have hst : ((DLNumber.new a u eeprom).1.setValues (cs ++ [c])
      (DLNumber.new a u eeprom).2).2 (addrAt a i.val) = byteOf c.bits i.val := by
    rw [key (cs ++ [c]), DLNumber.getUintValue, hdata]
    exact Data.byteOf_l (Data.setL c.bits) i
  refine ⟨⟨key cs, key cs⟩, ⟨hget, hget, hst⟩, ?_⟩
  intro hlo hhi
  rw [← addrAt_eq a i.val i.isLt hlo hhi]
  exact ⟨key cs, hst⟩

theorem storage_agrees_with_memory_witness :
    ((DLNumber.new 16 (fun _ => 0) (fun _ => 255)).1.setValues [.ofUint 7]
        (DLNumber.new 16 (fun _ => 0) (fun _ => 255)).2).2 (16 + (((2 : Fin SIZE) : Nat) : Int))
      = byteOf
        ((DLNumber.new 16 (fun _ => 0) (fun _ => 255)).1.setValues [.ofUint 7]
          (DLNumber.new 16 (fun _ => 0) (fun _ => 255)).2).1.getUintValue
        ((2 : Fin SIZE) : Nat) ∧
      ((DLNumber.new 16 (fun _ => 0) (fun _ => 255)).1.setValues ([.ofUint 7] ++ [.ofUint 305419896])
        (DLNumber.new 16 (fun _ => 0) (fun _ => 255)).2).2 (16 + (((2 : Fin SIZE) : Nat) : Int))
      = byteOf (SetCall.ofUint 305419896).bits ((2 : Fin SIZE) : Nat) :=
  (storage_agrees_with_memory (fun _ => 255) 16 (fun _ => 0) [.ofUint 7] (.ofUint 305419896)
    2).2.2 (by decide) (by decide)

/-- C9. Reverse round trip: building a `DLNumber` at `a` and calling
`setValue(getUintValue())` leaves the whole storage unchanged; the constructor
and `load` do not modify storage either. -/
theorem setValue_of_getUintValue (eeprom : Storage) (a : Int) (u : Data) :
    ((DLNumber.new a u eeprom).1.setValueUint (DLNumber.new a u eeprom).1.getUintValue
        (DLNumber.new a u eeprom).2).2 = eeprom ∧
      (DLNumber.new a u eeprom).2 = eeprom ∧
      (∀ self : DLNumber, (self.load eeprom).2.2 = eeprom) := by
  refine ⟨?_, rfl, fun _ => rfl⟩
  have hd : Data.setL (DLNumber.new a u eeprom).1.getUintValue = (DLNumber.new a u eeprom).1.data :=
    Data.setL_l _
  have hs : ({ (DLNumber.new a u eeprom).1 with
      data := Data.setL (DLNumber.new a u eeprom).1.getUintValue } : DLNumber)
      = (DLNumber.new a u eeprom).1 := by
    rw [hd]
  show (DLNumber.save _ _).2 = eeprom
  rw [hs]
  exact DLNumber.save_of_synced _ _ (DLNumber.new_synced a u eeprom)

/-- C10. The float and unsigned views alias one 32-bit quantity: `getUintValue`
is the pattern formed by the four held bytes and `getFloatValue` has that same
pattern; after `setValue(float f)` `getUintValue` is the pattern of `f`, after
`setValue(unsigned long v)` `getFloatValue` has pattern `v`, and a later
`setValue` of either type overwrites the earlier value. -/
theorem float_and_uint_alias (self : DLNumber) (eeprom : Storage) (v : Nat) (f : CFloat)
    (hv : v < 2 ^ 32) (hf : f.bits < 2 ^ 32) :
    self.getUintValue = (self.data 0).val + 256 * (self.data 1).val
        + 65536 * (self.data 2).val + 16777216 * (self.data 3).val ∧
      self.getFloatValue.bits = self.getUintValue ∧
      (self.setValueFloat f eeprom).1.getUintValue = f.bits ∧
      (self.setValueUint v eeprom).1.getFloatValue.bits = v ∧
      ((self.setValueUint v eeprom).1.setValueFloat f
        (self.setValueUint v eeprom).2).1.getUintValue = f.bits ∧
      ((self.setValueUint v eeprom).1.setValueFloat f
        (self.setValueUint v eeprom).2).1.getFloatValue = f ∧
      ((self.setValueFloat f eeprom).1.setValueUint v
        (self.setValueFloat f eeprom).2).1.getUintValue = v ∧
      ((self.setValueFloat f eeprom).1.setValueUint v
        (self.setValueFloat f eeprom).2).1.getFloatValue.bits = v := by
  have hv' : v % 2 ^ 32 = v := Nat.mod_eq_of_lt hv
  have hf' : f.bits % 2 ^ 32 = f.bits := Nat.mod_eq_of_lt hf
  refine ⟨Data.l_eq _, rfl, ?_, ?_, ?_, ?_, ?_, ?_⟩
  · rw [DLNumber.getUintValue_setValueFloat, hf']
  · exact (DLNumber.getUintValue_setValueUint self v eeprom).trans hv'
  · rw [DLNumber.getUintValue_setValueFloat, hf']
  · exact Data.f_setF f hf
  · rw [DLNumber.getUintValue_setValueUint, hv']
  · exact (DLNumber.getUintValue_setValueUint _ v _).trans hv'

theorem float_and_uint_alias_witness :
    (DLNumber.mk 16 (fun _ => 255)).getUintValue
        = ((DLNumber.mk 16 (fun _ => 255)).data 0).val
          + 256 * ((DLNumber.mk 16 (fun _ => 255)).data 1).val
          + 65536 * ((DLNumber.mk 16 (fun _ => 255)).data 2).val
          + 16777216 * ((DLNumber.mk 16 (fun _ => 255)).data 3).val ∧
      (DLNumber.mk 16 (fun _ => 255)).getFloatValue.bits
        = (DLNumber.mk 16 (fun _ => 255)).getUintValue ∧
      ((DLNumber.mk 16 (fun _ => 255)).setValueFloat ⟨0x3F800000⟩ (fun _ => 255)).1.getUintValue
        = 0x3F800000 ∧
      ((DLNumber.mk 16 (fun _ => 255)).setValueUint 7 (fun _ => 255)).1.getFloatValue.bits = 7 ∧
      (((DLNumber.mk 16 (fun _ => 255)).setValueUint 7 (fun _ => 255)).1.setValueFloat
        ⟨0x3F800000⟩
        ((DLNumber.mk 16 (fun _ => 255)).setValueUint 7 (fun _ => 255)).2).1.getUintValue
        = 0x3F800000 ∧
      (((DLNumber.mk 16 (fun _ => 255)).setValueUint 7 (fun _ => 255)).1.setValueFloat
        ⟨0x3F800000⟩
        ((DLNumber.mk 16 (fun _ => 255)).setValueUint 7 (fun _ => 255)).2).1.getFloatValue
        = ⟨0x3F800000⟩ ∧
      (((DLNumber.mk 16 (fun _ => 255)).setValueFloat ⟨0x3F800000⟩ (fun _ => 255)).1.setValueUint
        7
        ((DLNumber.mk 16 (fun _ => 255)).setValueFloat ⟨0x3F800000⟩
          (fun _ => 255)).2).1.getUintValue = 7 ∧
      (((DLNumber.mk 16 (fun _ => 255)).setValueFloat ⟨0x3F800000⟩ (fun _ => 255)).1.setValueUint
        7
        ((DLNumber.mk 16 (fun _ => 255)).setValueFloat ⟨0x3F800000⟩
          (fun _ => 255)).2).1.getFloatValue.bits = 7 :=
  float_and_uint_alias (DLNumber.mk 16 (fun _ => 255)) (fun _ => 255) 7 ⟨0x3F800000⟩
    (by decide) (by decide)

/-! The integer digit editor -/

theorem IsDigits.tail {d : Int} {ds : List Int} (h : IsDigits (d :: ds)) : IsDigits ds :=
  fun x hx => h x (List.mem_cons_of_mem d hx)

theorem IsDigits.head {d : Int} {ds : List Int} (h : IsDigits (d :: ds)) : 0 ≤ d ∧ d ≤ 9 :=
  h d (List.mem_cons_self d ds)

theorem IsDigits.set {ds : List Int} (h : IsDigits ds) (i : Nat) {x : Int} (hx : 0 ≤ x ∧ x ≤ 9) :
    IsDigits (ds.set i x) := by
  intro y hy
  rcases List.mem_or_eq_of_mem_set hy with hm | he
  · exact h y hm
  · rw [he]
    exact hx

theorem IsDigits.getD {ds : List Int} (h : IsDigits ds) (i : Nat) :
    0 ≤ ds.getD i 0 ∧ ds.getD i 0 ≤ 9 := by
  induction ds generalizing i with
  | nil => simp
  | cons d tl ih =>
    cases i with
    | zero => exact h.head
    | succ j => exact ih h.tail j

theorem IsDigits.replicate (n : Nat) {x : Int} (hx : 0 ≤ x ∧ x ≤ 9) :
    IsDigits (List.replicate n x) := by
  intro y hy
  rw [(List.mem_replicate.mp hy).2]
  exact hx

theorem ten_pow_pos (m : Nat) : (0 : Int) < 10 ^ m :=
  pow_pos (by norm_num) m

theorem positional_set (ds : List Int) (i : Nat) (x : Int) (hi : i < ds.length) :
    positional (ds.set i x)
      = positional ds + (x - ds.getD i 0) * 10 ^ (ds.length - 1 - i) := by
  induction ds generalizing i with
  | nil => exact absurd hi (Nat.not_lt_zero _)
  | cons d tl ih =>
    cases i with
    | zero =>
      simp only [List.set_cons_zero, positional, List.getD_cons_zero, List.length_cons,
        Nat.add_sub_cancel, Nat.sub_zero]
      ring
    | succ j =>
      have hj : j < tl.length := Nat.lt_of_succ_lt_succ hi
      have he : (d :: tl).length - 1 - (j + 1) = tl.length - 1 - j := by
        simp only [List.length_cons]
        omega
      rw [he]
      simp only [List.set_cons_succ, positional, List.getD_cons_succ, List.length_set, ih j hj]
      ring

theorem positional_bounds {ds : List Int} (h : IsDigits ds) :
    0 ≤ positional ds ∧ positional ds ≤ 10 ^ ds.length - 1 := by
  induction ds with
  | nil => simp [positional]
  | cons d tl ih =>
    have hd := h.head
    have ht := ih h.tail
    have hp := ten_pow_pos tl.length
    simp only [positional, List.length_cons, pow_succ]
    constructor
    · nlinarith
    · nlinarith

theorem positional_replicate_nine (n : Nat) :
    positional (List.replicate n 9) = 10 ^ n - 1 := by
  induction n with
  | zero => simp [positional]
  | succ n ih =>
    simp only [List.replicate_succ, positional, List.length_replicate, ih, pow_succ]
    ring

theorem positional_injective {ds ds' : List Int} (h : IsDigits ds) (h' : IsDigits ds')
    (hlen : ds.length = ds'.length) (hval : positional ds = positional ds') : ds = ds' := by
  induction ds generalizing ds' with
  | nil =>
    cases ds' with
    | nil => rfl
    | cons d' tl' => simp at hlen
  | cons d tl ih =>
    cases ds' with
    | nil => simp at hlen
    | cons d' tl' =>
      have hl : tl.length = tl'.length := by simpa using hlen
      have hd := h.head
      have hd' := h'.head
      have hb := positional_bounds h.tail
      have hb' := positional_bounds h'.tail
      have hp := ten_pow_pos tl'.length
      simp only [positional, hl] at hval
      rw [hl] at hb
      have hdd : d = d' := by
        rcases lt_trichotomy d d' with hlt | heq | hgt
        · exfalso
          have : (d + 1) * 10 ^ tl'.length ≤ d' * 10 ^ tl'.length :=
            mul_le_mul_of_nonneg_right (by omega) (le_of_lt hp)
          nlinarith
        · exact heq
        · exfalso
          have : (d' + 1) * 10 ^ tl'.length ≤ d * 10 ^ tl'.length :=
            mul_le_mul_of_nonneg_right (by omega) (le_of_lt hp)
          nlinarith
      rw [hdd] at hval
      have ht : positional tl = positional tl' := by linarith
      rw [hdd, ih h.tail h'.tail hl ht]

theorem explodeDigits_length (n value : Nat) : (explodeDigits n value).length = n := by
  induction n with
  | zero => rfl
  | succ n ih => simp [explodeDigits, ih]

theorem explodeDigits_isDigits (n value : Nat) : IsDigits (explodeDigits n value) := by
  induction n with
  | zero =>
    intro d hd
    simp [explodeDigits] at hd
  | succ n ih =>
    intro d hd
    simp only [explodeDigits, List.mem_cons] at hd
    rcases hd with he | hm
    · rw [he]
      have : value / 10 ^ n % 10 < 10 := Nat.mod_lt _ (by decide)
      omega
    · exact ih d hm

theorem positional_explodeDigits (n value : Nat) :
    positional (explodeDigits n value) = ((value % 10 ^ n : Nat) : Int) := by
  induction n with
  | zero => simp [explodeDigits, positional, Nat.mod_one]
  | succ n ih =>
    simp only [explodeDigits, positional, explodeDigits_length, ih, Nat.mod_pow_succ]
    push_cast
    ring

theorem addAt_length (s : Nat) (ds : List Int) (delta : Int) :
    (addAt ds s delta).length = ds.length := by
  induction s generalizing ds delta with
  | zero =>
    simp only [addAt]
    split_ifs <;> simp
  | succ s ih =>
    simp only [addAt]
    split_ifs
    · rw [ih, List.length_set]
    · rw [ih, List.length_set]
    · rw [List.length_set]

/-- Adding one at section `s` of a buffer of decimal digits adds
`10 ^ (n - 1 - s)` to its value, clamped at the all-9s maximum. -/
theorem addAt_one (s : Nat) (ds : List Int) (h : IsDigits ds) (hs : s < ds.length) :
    IsDigits (addAt ds s 1) ∧
      positional (addAt ds s 1)
        = min (positional ds + 10 ^ (ds.length - 1 - s)) (10 ^ ds.length - 1) := by
  induction s generalizing ds with
  | zero =>
    have hg := h.getD 0
    have hb := positional_bounds h
    simp only [addAt]
    split_ifs with h9 hneg
    · refine ⟨IsDigits.replicate _ (by decide), ?_⟩
      rw [positional_replicate_nine]
      cases ds with
      | nil => simp at hs
      | cons d tl =>
        have ht := positional_bounds h.tail
        have hp := ten_pow_pos tl.length
        simp only [List.getD_cons_zero] at h9 hg
        have hd9 : d = 9 := by omega
        simp only [positional, List.length_cons, Nat.add_sub_cancel, Nat.sub_zero, pow_succ, hd9]
        rw [min_eq_right]
        nlinarith
    · omega
    · have hd : IsDigits (ds.set 0 (ds.getD 0 0 + 1)) := h.set 0 ⟨by omega, by omega⟩
      refine ⟨hd, ?_⟩
      have hb2 := positional_bounds hd
      rw [List.length_set] at hb2
      rw [positional_set ds 0 _ hs] at hb2 ⊢
      have e : ds.getD 0 0 + 1 - ds.getD 0 0 = 1 := by ring
      rw [e, one_mul] at hb2 ⊢
      rw [min_eq_left hb2.2]
  | succ s ih =>
    have hg := h.getD (s + 1)
    simp only [addAt]
    split_ifs with h9 hneg
    · have hd : IsDigits (ds.set (s + 1) (ds.getD (s + 1) 0 + 1 - 10)) :=
        h.set (s + 1) ⟨by omega, by omega⟩
      have hs' : s < (ds.set (s + 1) (ds.getD (s + 1) 0 + 1 - 10)).length := by
        rw [List.length_set]
        omega
      have step := ih _ hd hs'
      refine ⟨step.1, ?_⟩
      rw [step.2, List.length_set, positional_set ds (s + 1) _ hs]
      have he : ds.length - 1 - s = (ds.length - 1 - (s + 1)) + 1 := by omega
      have e : ds.getD (s + 1) 0 + 1 - 10 - ds.getD (s + 1) 0 = -9 := by ring
      rw [he, pow_succ, e]
      congr 1
      ring
    · omega
    · have hd : IsDigits (ds.set (s + 1) (ds.getD (s + 1) 0 + 1)) :=
        h.set (s + 1) ⟨by omega, by omega⟩
      refine ⟨hd, ?_⟩
      have hb2 := positional_bounds hd
      rw [List.length_set] at hb2
      rw [positional_set ds (s + 1) _ hs] at hb2 ⊢
      have e : ds.getD (s + 1) 0 + 1 - ds.getD (s + 1) 0 = 1 := by ring
      rw [e, one_mul] at hb2 ⊢
      rw [min_eq_left hb2.2]

theorem explodeDigits_max (n : Nat) : explodeDigits n (10 ^ n - 1) = List.replicate n 9 := by
  apply positional_injective (explodeDigits_isDigits _ _) (IsDigits.replicate _ (by decide))
  · rw [explodeDigits_length, List.length_replicate]
  · have hp : 0 < 10 ^ n := pow_pos (by decide) n
    rw [positional_explodeDigits, positional_replicate_nine, Nat.mod_eq_of_lt (by omega)]
    rw [Nat.cast_sub hp]
    push_cast
    rfl

theorem addAt_zero_replicate_nine (n : Nat) :
    addAt (List.replicate n 9) 0 1 = List.replicate n 9 := by
  cases n with
  | zero => rfl
  | succ n => simp [addAt, List.replicate_succ]

/-- C7. Carry propagation in the integer digit editor: exploding 99 into a
3-digit buffer gives `[0,9,9]`, and `add(+1)` at the least significant section
then gives `[1,0,0]`, value 100; for every `n`-digit buffer whose value `v` is
below the `n`-digit maximum, `add(+1)` at the least significant section gives
the digits of `v + 1`. -/
theorem int_carry_propagation :
    (∀ ns : List Int,
      ((DLIntMenuItem.mk 3 ns 2).explode 99).numerals = [0, 9, 9] ∧
        (((DLIntMenuItem.mk 3 ns 2).explode 99).add 1).numerals = [1, 0, 0] ∧
        (((DLIntMenuItem.mk 3 ns 2).explode 99).add 1).value = 100) ∧
      ∀ self : DLIntMenuItem, self.numerals.length = self.digits → IsDigits self.numerals →
        self.s + 1 = self.digits → self.value < 10 ^ self.digits - 1 →
        (self.add 1).numerals = (self.explode (self.value + 1).toNat).numerals ∧
          (self.add 1).value = self.value + 1 := by
  constructor
  · intro ns
    have e : (DLIntMenuItem.mk 3 ns 2).explode 99 = DLIntMenuItem.mk 3 [0, 9, 9] 2 := by
      have hd : explodeDigits 3 (min 99 (10 ^ 3 - 1)) = [0, 9, 9] := by decide
      simp only [DLIntMenuItem.explode, hd]
    rw [e]
    exact ⟨rfl, by decide, by decide⟩
  · intro self hlen hdig hs hlt
    have hb := positional_bounds hdig
    have hsl : self.s < self.numerals.length := by omega
    have hadd := addAt_one self.s self.numerals hdig hsl
    have he : self.numerals.length - 1 - self.s = 0 := by omega
    simp only [DLIntMenuItem.value] at hlt
    rw [he, pow_zero, hlen, min_eq_left (by omega)] at hadd
    obtain ⟨V, hV⟩ := Int.eq_ofNat_of_zero_le hb.1
    have hp : 0 < 10 ^ self.digits := pow_pos (by decide) self.digits
    have hc : ((10 ^ self.digits : Nat) : Int) = 10 ^ self.digits := by
      push_cast
      rfl
    have hVlt : V + 1 ≤ 10 ^ self.digits - 1 := by
      rw [hV] at hlt
      omega
    have hw : (positional self.numerals + 1).toNat = V + 1 := by
      rw [hV]
      omega
    have hval : positional (explodeDigits self.digits (min (V + 1) (10 ^ self.digits - 1)))
        = positional self.numerals + 1 := by
      rw [positional_explodeDigits, min_eq_left hVlt, Nat.mod_eq_of_lt (by omega), hV]
      push_cast
      rfl
    refine ⟨?_, hadd.2⟩
    simp only [DLIntMenuItem.add, DLIntMenuItem.explode, DLIntMenuItem.value, hw]
    apply positional_injective hadd.1 (explodeDigits_isDigits _ _)
    · rw [addAt_length, explodeDigits_length, hlen]
    · rw [hadd.2, hval]

theorem int_carry_propagation_witness :
    ((DLIntMenuItem.mk 3 [0, 9, 9] 2).add 1).numerals
        = ((DLIntMenuItem.mk 3 [0, 9, 9] 2).explode
            ((DLIntMenuItem.mk 3 [0, 9, 9] 2).value + 1).toNat).numerals ∧
      ((DLIntMenuItem.mk 3 [0, 9, 9] 2).add 1).value = (DLIntMenuItem.mk 3 [0, 9, 9] 2).value + 1 :=
  int_carry_propagation.2 (DLIntMenuItem.mk 3 [0, 9, 9] 2) (by decide) (by decide) (by decide)
    (by decide)

/-- C8. Integer clamp at maximum: for every digit count `n`, exploding the
maximum `n`-digit integer (all 9s) and calling `increase()` at the most
significant digit leaves the buffer and its value unchanged, at all 9s; it
does not wrap to zero. -/
theorem int_clamp_at_maximum (n : Nat) (ns : List Int) :
    ((DLIntMenuItem.mk n ns 0).explode (10 ^ n - 1)).numerals = List.replicate n 9 ∧
      ((DLIntMenuItem.mk n ns 0).explode (10 ^ n - 1)).increase.numerals = List.replicate n 9 ∧
      ((DLIntMenuItem.mk n ns 0).explode (10 ^ n - 1)).increase.value
        = ((DLIntMenuItem.mk n ns 0).explode (10 ^ n - 1)).value ∧
      ((DLIntMenuItem.mk n ns 0).explode (10 ^ n - 1)).increase.value = 10 ^ n - 1 := by
  have h1 : ((DLIntMenuItem.mk n ns 0).explode (10 ^ n - 1)).numerals = List.replicate n 9 := by
    simp only [DLIntMenuItem.explode, min_self]
    exact explodeDigits_max n
  have h2 : ((DLIntMenuItem.mk n ns 0).explode (10 ^ n - 1)).increase.numerals
      = List.replicate n 9 := by
    simp only [DLIntMenuItem.increase, DLIntMenuItem.add, h1]
    exact addAt_zero_replicate_nine n
  refine ⟨h1, h2, ?_, ?_⟩
  · simp only [DLIntMenuItem.value, h1, h2]
  · simp only [DLIntMenuItem.value, h2]
    exact positional_replicate_nine n

end DLMenu
